import Mathlib

/-!
# Verification of the Haka audio waveform visualizer

A shallow embedding of the Haka class (`src/main.ts`): the bar timeline data
model, the per-tick animation/sampling step (`animate`), placeholder seeding
(`initialize`), the constructor's option defaulting, and the `start` /
`soundNotAllowed` failure path.  Numbers are modelled as rationals, the
per-frame callback as an explicit `tick` function on an explicit state, and
canvas painting as a list of fill-rectangle operations.
-/

namespace Haka

/-- Bar status: `'placeholder' | 'recorded'` in the source. -/
inductive Status where
  | placeholder
  | recorded
deriving DecidableEq, Repr

/-- The `Bar` record of the source (`x`, `y`, `width`, `height`,
`targetHeight`, `created`, `status`). -/
structure Bar where
  x : ℚ
  y : ℚ
  width : ℚ
  height : ℚ
  targetHeight : ℚ
  created : ℚ
  status : Status
deriving DecidableEq, Repr

/-- Configuration fields of a constructed `Haka` instance: canvas size plus
the option-derived fields. -/
structure Config where
  width : ℚ
  height : ℚ
  timeOffset : ℚ
  barWidth : ℚ
  barGap : ℚ
  scrollSpeed : ℚ
  noiseThreshold : ℚ
  expandDuration : ℚ
  easing : ℚ → ℚ
  barColor : String
  dotColor : String
  blackDotColor : String

/-- The mutable state the tick loop reads and writes: the bar list and
`lastDataCollectionTime`. -/
structure State where
  bars : List Bar
  lastDataCollectionTime : ℚ
deriving DecidableEq, Repr

/-- What one invocation of `animate` observes from the outside world:
`performance.now()`, whether `soundAllowed` has attached the analyser, and
the buffer filled by `getFloatTimeDomainData`. -/
structure TickInput where
  now : ℚ
  attached : Bool
  buffer : List ℚ
deriving DecidableEq, Repr

/-- The default easing: `x < 0.5 ? 4*x*x*x : 1 - Math.pow(-2*x+2, 3)/2`. -/
def easeInOutCubic (x : ℚ) : ℚ :=
  if x < 1/2 then 4 * x * x * x else 1 - (-2 * x + 2)^3 / 2

/-- The peak-amplitude scan in `animate`: `max` starts at `0` and is replaced
whenever a raw sample exceeds it (no absolute value is taken). -/
def peakOf (buffer : List ℚ) : ℚ :=
  buffer.foldl (fun m v => if v > m then v else m) 0

/-- `lastX`: the `x` of the newest bar, or the canvas width when the list is
empty. -/
def lastX (cfg : Config) (bars : List Bar) : ℚ :=
  match bars.getLast? with
  | none => cfg.width
  | some b => b.x

/-- The sampling guard of `animate`: edge room
(`width - lastX >= barWidth + barGap`), analyser attached, and
`now - lastDataCollectionTime > timeOffset`. -/
def takesSample (cfg : Config) (s : State) (inp : TickInput) : Bool :=
  decide (cfg.barWidth + cfg.barGap ≤ cfg.width - lastX cfg s.bars) &&
  inp.attached &&
  decide (cfg.timeOffset < inp.now - s.lastDataCollectionTime)

/-- The bar pushed when a sample is taken:
`{x: width, y: 0, height: 0, targetHeight: floor(max*height*1.2), created: now,
status: 'recorded', width: barWidth}`. -/
def newBar (cfg : Config) (now : ℚ) (buffer : List ℚ) : Bar :=
  { x := cfg.width
    y := 0
    height := 0
    targetHeight := ((⌊peakOf buffer * cfg.height * (6/5)⌋ : ℤ) : ℚ)
    created := now
    status := .recorded
    width := cfg.barWidth }

/-- The per-bar mutation of one loop iteration of `animate`: a recorded bar
gets `height := targetHeight * easing(min(age/expandDuration, 1))` and a
recentred `y`; every bar then has `x` decreased by `scrollSpeed`. -/
def updateBar (cfg : Config) (now : ℚ) (b : Bar) : Bar :=
  match b.status with
  | .placeholder => { b with x := b.x - cfg.scrollSpeed }
  | .recorded =>
      let rawProgress := min ((now - b.created) / cfg.expandDuration) 1
      let h := b.targetHeight * cfg.easing rawProgress
      { b with height := h, y := cfg.height / 2 - h / 2, x := b.x - cfg.scrollSpeed }

/-- The aging/cull pass of `animate`: update every bar, then splice out
exactly those whose post-scroll trailing edge satisfies `x + width < 0`. -/
def advanceAndCull (cfg : Config) (now : ℚ) (bars : List Bar) : List Bar :=
  (bars.map (updateBar cfg now)).filter (fun b => decide (0 ≤ b.x + b.width))

/-- One invocation of `animate` as a state transformer: conditionally sample
and append, then age, scroll and cull every bar (the freshly pushed bar is
inside the loop's range and is processed too). -/
def tick (cfg : Config) (s : State) (inp : TickInput) : State :=
  if takesSample cfg s inp then
    { bars := advanceAndCull cfg inp.now (s.bars ++ [newBar cfg inp.now inp.buffer])
      lastDataCollectionTime := inp.now }
  else
    { bars := advanceAndCull cfg inp.now s.bars
      lastDataCollectionTime := s.lastDataCollectionTime }

/-- Number of placeholder bars seeded by `initialize`:
`Math.ceil(width / (barWidth + barGap))`. -/
def seedCount (cfg : Config) : ℕ :=
  (⌈cfg.width / (cfg.barWidth + cfg.barGap)⌉ : ℤ).toNat

/-- The `i`-th placeholder bar pushed by `initialize`. -/
def placeholderBar (cfg : Config) (i : ℕ) : Bar :=
  { x := (i : ℚ) * (cfg.barWidth + cfg.barGap)
    y := 0
    height := 0
    targetHeight := 0
    created := 0
    status := .placeholder
    width := cfg.barWidth }

/-- `initialize`: discard all bars and seed `seedCount` placeholders at
offsets `i * (barWidth + barGap)`. -/
def seedState (cfg : Config) (s : State) : State :=
  { s with bars := (List.range (seedCount cfg)).map (placeholderBar cfg) }

/-- Field state right after the constructor runs: `bars = []` and
`lastDataCollectionTime = 0`. -/
def initialState : State :=
  { bars := [], lastDataCollectionTime := 0 }

/-- States (tagged with the current clock value) reachable by constructing
the instance, calling `initialize`, attaching the audio source
(`soundAllowed` resets `lastDataCollectionTime` to the attach time), and
running `animate` ticks at non-decreasing times. -/
inductive Reachable (cfg : Config) : ℚ → State → Prop where
  | constructed : Reachable cfg 0 initialState
  | seed : ∀ t s, Reachable cfg t s → Reachable cfg t (seedState cfg s)
  | attach : ∀ t t' s, Reachable cfg t s → t ≤ t' →
      Reachable cfg t' { s with lastDataCollectionTime := t' }
  | step : ∀ t s inp, Reachable cfg t s → t ≤ inp.now →
      Reachable cfg inp.now (tick cfg s inp)

/-- Number of recorded (non-placeholder) bars in the timeline. -/
def countRecorded (s : State) : ℕ :=
  (s.bars.filter (fun b => decide (b.status = .recorded))).length

/-- One canvas paint operation: `ctx.fillRect(x, y, w, h)` with the current
`fillStyle`. -/
structure RectOp where
  x : ℚ
  y : ℚ
  w : ℚ
  h : ℚ
  color : String
deriving DecidableEq, Repr

/-- How one loop iteration of `animate` paints one bar (using the bar's
pre-scroll `x` and the height computed in the same iteration): a placeholder
is a 2-unit strip at `height/2 - 1` in `blackDotColor`; a recorded bar below
`minHeight = height * noiseThreshold` is the same strip in `dotColor`;
otherwise a filled rectangle of the freshly eased height in `barColor`. -/
def renderBar (cfg : Config) (now : ℚ) (b : Bar) : RectOp :=
  match b.status with
  | .placeholder =>
      { x := b.x, y := cfg.height / 2 - 1, w := b.width, h := 2, color := cfg.blackDotColor }
  | .recorded =>
      let rawProgress := min ((now - b.created) / cfg.expandDuration) 1
      let hgt := b.targetHeight * cfg.easing rawProgress
      if b.targetHeight < cfg.height * cfg.noiseThreshold then
        { x := b.x, y := cfg.height / 2 - 1, w := b.width, h := 2, color := cfg.dotColor }
      else
        { x := b.x, y := cfg.height / 2 - hgt / 2, w := b.width, h := hgt, color := cfg.barColor }

/-- The sequence of fill operations one `animate` call issues after the
clear: the loop walks the (possibly just-extended) bar list newest first,
painting each bar before scrolling it. -/
def frameOps (cfg : Config) (s : State) (inp : TickInput) : List RectOp :=
  let l1 := if takesSample cfg s inp then s.bars ++ [newBar cfg inp.now inp.buffer]
            else s.bars
  l1.reverse.map (renderBar cfg inp.now)

/-- The optional constructor fields of `HakaOptions`; `none` models a
null/undefined (absent) option. -/
structure HakaOptions where
  timeOffset : Option ℚ := none
  barWidth : Option ℚ := none
  barGap : Option ℚ := none
  scrollSpeed : Option ℚ := none
  barColor : Option String := none
  dotColor : Option String := none
  blackDotColor : Option String := none
  noiseThreshold : Option ℚ := none
  easing : Option (ℚ → ℚ) := none
  expandDuration : Option ℚ := none

/-- JavaScript `options.v || default` on a numeric option: both an absent
option and the falsy value `0` yield the default. -/
def orQ (o : Option ℚ) (d : ℚ) : ℚ :=
  match o with
  | none => d
  | some v => if v = 0 then d else v

/-- JavaScript `options.v || default` on a string option: both an absent
option and the falsy empty string yield the default. -/
def orS (o : Option String) (d : String) : String :=
  match o with
  | none => d
  | some v => if v = "" then d else v

/-- The constructor's option handling: every option except `noiseThreshold`
is defaulted with `||`; `noiseThreshold` uses `??` (nullish coalescing).
`width`/`height` come from the canvas. -/
def mkConfig (width height : ℚ) (o : HakaOptions) : Config :=
  { width := width
    height := height
    timeOffset := orQ o.timeOffset 100
    barWidth := orQ o.barWidth 3
    barGap := orQ o.barGap 10
    scrollSpeed := orQ o.scrollSpeed 1
    noiseThreshold := o.noiseThreshold.getD (1/100)
    expandDuration := orQ o.expandDuration 200
    easing := o.easing.getD easeInOutCubic
    barColor := orS o.barColor "#FFFFFF"
    dotColor := orS o.dotColor "#666666"
    blackDotColor := orS o.blackDotColor "#000000" }

/-- Instance-level state around the tick loop: the timeline state plus
whether the analyser is attached, whether the animation loop has been
started, how many `getUserMedia` requests have been issued, and the
`console.error` log. -/
structure AppState where
  state : State
  attached : Bool
  running : Bool
  mediaRequests : ℕ
  errorLog : List String

/-- `soundAllowed`: attach the analyser, reset `lastDataCollectionTime` to
the current time, and begin the `animate` loop. -/
def soundAllowed (now : ℚ) (a : AppState) : AppState :=
  { a with attached := true
           running := true
           state := { a.state with lastDataCollectionTime := now } }

/-- `soundNotAllowed`: only `console.error` the failure; nothing else
changes and no new acquisition is requested. -/
def soundNotAllowed (err : String) (a : AppState) : AppState :=
  { a with errorLog := a.errorLog ++ ["Error getting audio stream: " ++ err] }

/-- `start`: issue exactly one `getUserMedia` request; on success run
`soundAllowed`, on failure run `soundNotAllowed`. -/
def start (acq : Except String Unit) (now : ℚ) (a : AppState) : AppState :=
  let requested := { a with mediaRequests := a.mediaRequests + 1 }
  match acq with
  | .ok _ => soundAllowed now requested
  | .error e => soundNotAllowed e requested

/-- A scheduler tick at the instance level: `animate` reschedules itself, so
the timeline advances only while the loop is running. -/
def appTick (cfg : Config) (a : AppState) (inp : TickInput) : AppState :=
  if a.running then { a with state := tick cfg a.state inp } else a

/-- Modelled from the spec: the peak computation the spec's section 4.2
describes, `peak = max(|sample[i]|) for all i` — the absolute-value variant,
stated only to compare against `peakOf`, which embeds the source. -/
def specPeakAbs (buffer : List ℚ) : ℚ :=
  buffer.foldl (fun m v => max m |v|) 0

/-- A concrete configuration used by witnesses: the constructor defaults
except for a faster scroll speed. -/
def cfgA : Config :=
  { width := 100, height := 100, timeOffset := 100, barWidth := 3, barGap := 10
    scrollSpeed := 10, noiseThreshold := 1/100, expandDuration := 200
    easing := easeInOutCubic, barColor := "#FFFFFF", dotColor := "#666666"
    blackDotColor := "#000000" }

/-- A concrete configuration with linear easing and default expand
duration, for the C4 scenario. -/
def cfgLin : Config :=
  { cfgA with easing := fun q => q, scrollSpeed := 1 }

/-- A concrete timeline state with one placeholder bar on screen and a
sampling window already open at `t = 0`. -/
def sA : State :=
  { bars := [placeholderBar cfgA 0], lastDataCollectionTime := -150 }

/-- A concrete recorded bar with `targetHeight = 50` created at `t0 = 0`. -/
def recBar : Bar :=
  { x := 100, y := 0, width := 3, height := 0, targetHeight := 50, created := 0
    status := .recorded }

/-- A concrete recorded bar whose target height is below the noise
threshold of `cfgA` (`minHeight = 1`). -/
def quietBar : Bar :=
  { x := 40, y := 0, width := 3, height := 7, targetHeight := 1/2, created := 0
    status := .recorded }

/-- A concrete recorded bar above the noise threshold of `cfgA`. -/
def loudBar : Bar :=
  { x := 40, y := 0, width := 3, height := 0, targetHeight := 60, created := 0
    status := .recorded }

/-- A concrete instance-level state: seeded, loop not yet started. -/
def appA : AppState :=
  { state := seedState cfgA initialState, attached := false, running := false
    mediaRequests := 0, errorLog := [] }

/-! ## Helper lemmas -/

theorem updateBar_x (cfg : Config) (now : ℚ) (b : Bar) :
    (updateBar cfg now b).x = b.x - cfg.scrollSpeed := by
  cases h : b.status <;> simp [updateBar, h]

theorem updateBar_width (cfg : Config) (now : ℚ) (b : Bar) :
    (updateBar cfg now b).width = b.width := by
  cases h : b.status <;> simp [updateBar, h]

theorem updateBar_targetHeight (cfg : Config) (now : ℚ) (b : Bar) :
    (updateBar cfg now b).targetHeight = b.targetHeight := by
  cases h : b.status <;> simp [updateBar, h]

theorem updateBar_created (cfg : Config) (now : ℚ) (b : Bar) :
    (updateBar cfg now b).created = b.created := by
  cases h : b.status <;> simp [updateBar, h]

theorem updateBar_status (cfg : Config) (now : ℚ) (b : Bar) :
    (updateBar cfg now b).status = b.status := by
  cases h : b.status <;> simp [updateBar, h]

theorem le_foldl_peak (l : List ℚ) :
    ∀ m : ℚ, m ≤ l.foldl (fun m v => if v > m then v else m) m := by
  induction l with
  | nil => intro m; simp
  | cons a t ih =>
      intro m
      simp only [List.foldl_cons]
      refine le_trans ?_ (ih _)
      by_cases h : a > m
      · simp only [if_pos h]; exact le_of_lt h
      · simp only [if_neg h]; exact le_rfl

theorem mem_le_foldl_peak (l : List ℚ) :
    ∀ (m v : ℚ), v ∈ l → v ≤ l.foldl (fun m v => if v > m then v else m) m := by
  induction l with
  | nil => intro m v hv; simp at hv
  | cons a t ih =>
      intro m v hv
      rcases List.mem_cons.mp hv with rfl | hv
      · simp only [List.foldl_cons]
        refine le_trans ?_ (le_foldl_peak t _)
        by_cases h : v > m
        · simp only [if_pos h]; exact le_rfl
        · simp only [if_neg h]; exact le_of_not_lt h
      · simp only [List.foldl_cons]
        exact ih _ v hv

theorem foldl_peak_mem (l : List ℚ) :
    ∀ m : ℚ, l.foldl (fun m v => if v > m then v else m) m = m ∨
      l.foldl (fun m v => if v > m then v else m) m ∈ l := by
  induction l with
  | nil => intro m; simp
  | cons a t ih =>
      intro m
      simp only [List.foldl_cons]
      rcases ih (if a > m then a else m) with h | h
      · rw [h]
        by_cases ha : a > m
        · right; simp [ha]
        · left; simp [ha]
      · right; exact List.mem_cons_of_mem _ h

theorem peakOf_nonneg (l : List ℚ) : 0 ≤ peakOf l :=
  le_foldl_peak l 0

theorem updateBar_height_recorded (cfg : Config) (now : ℚ) (b : Bar)
    (h : b.status = .recorded) :
    (updateBar cfg now b).height
      = b.targetHeight * cfg.easing (min ((now - b.created) / cfg.expandDuration) 1) := by
  simp [updateBar, h]

theorem updateBar_height_placeholder (cfg : Config) (now : ℚ) (b : Bar)
    (h : b.status = .placeholder) :
    (updateBar cfg now b).height = b.height := by
  simp [updateBar, h]

/-- The pairwise spacing relation maintained by the timeline: a later bar
sits at least `barWidth + barGap` to the right. -/
def barRel (cfg : Config) (a b : Bar) : Prop :=
  a.x + cfg.barWidth + cfg.barGap ≤ b.x

theorem mem_advanceAndCull (cfg : Config) (now : ℚ) (l : List Bar) (b : Bar)
    (hb : b ∈ advanceAndCull cfg now l) :
    (∃ a ∈ l, b = updateBar cfg now a) ∧ 0 ≤ b.x + b.width := by
  have hpos := List.of_mem_filter hb
  have hmem := List.mem_of_mem_filter hb
  obtain ⟨a, ha, rfl⟩ := List.mem_map.mp hmem
  exact ⟨⟨a, ha, rfl⟩, of_decide_eq_true hpos⟩

theorem tick_bars_mem (cfg : Config) (s : State) (inp : TickInput) (b : Bar)
    (hb : b ∈ (tick cfg s inp).bars) :
    ∃ a, (a ∈ s.bars ∨ a = newBar cfg inp.now inp.buffer) ∧
      b = updateBar cfg inp.now a := by
  by_cases htk : takesSample cfg s inp
  · simp only [tick, if_pos htk] at hb
    obtain ⟨⟨a, ha, rfl⟩, -⟩ := mem_advanceAndCull cfg inp.now _ b hb
    rcases List.mem_append.mp ha with h | h
    · exact ⟨a, Or.inl h, rfl⟩
    · exact ⟨a, Or.inr (List.mem_singleton.mp h), rfl⟩
  · simp only [tick, if_neg htk] at hb
    obtain ⟨⟨a, ha, rfl⟩, -⟩ := mem_advanceAndCull cfg inp.now _ b hb
    exact ⟨a, Or.inl ha, rfl⟩

theorem reachable_trailing_edge (cfg : Config)
    (hbw : 0 ≤ cfg.barWidth) (hbg : 0 ≤ cfg.barGap)
    {t : ℚ} {s : State} (hre : Reachable cfg t s) :
    ∀ b ∈ s.bars, 0 ≤ b.x + b.width := by
  induction hre with
  | constructed => intro b hb; simp [initialState] at hb
  | seed t s _ ih =>
      intro b hb
      simp only [seedState, List.mem_map, List.mem_range] at hb
      obtain ⟨i, -, rfl⟩ := hb
      simp only [placeholderBar]
      have h1 : (0 : ℚ) ≤ (i : ℚ) * (cfg.barWidth + cfg.barGap) :=
        mul_nonneg (Nat.cast_nonneg i) (by linarith)
      linarith
  | attach t t' s _ _ ih => intro b hb; exact ih b hb
  | step t s inp _ _ ih =>
      intro b hb
      by_cases htk : takesSample cfg s inp
      · simp only [tick, if_pos htk] at hb
        exact (mem_advanceAndCull cfg inp.now _ b hb).2
      · simp only [tick, if_neg htk] at hb
        exact (mem_advanceAndCull cfg inp.now _ b hb).2

theorem pairwise_x_le_getLast (cfg : Config)
    (hWG : 0 ≤ cfg.barWidth + cfg.barGap) :
    ∀ (l : List Bar) (z : Bar), l.Pairwise (barRel cfg) → l.getLast? = some z →
      ∀ a ∈ l, a.x ≤ z.x := by
  intro l
  induction l with
  | nil => intro z _ hz; simp at hz
  | cons b u ih =>
      intro z hp hz a ha
      obtain ⟨hrel, hp'⟩ := List.pairwise_cons.mp hp
      rcases List.mem_cons.mp ha with rfl | hat
      · cases u with
        | nil =>
            simp only [List.getLast?_singleton, Option.some_inj] at hz
            rw [hz]
        | cons c u' =>
            rw [List.getLast?_cons_cons] at hz
            have hzmem : z ∈ c :: u' := by
              obtain ⟨hne, rfl⟩ :=
                List.mem_getLast?_eq_getLast (Option.mem_def.mpr hz)
              exact List.getLast_mem hne
            have := hrel z hzmem
            unfold barRel at this
            linarith
      · cases u with
        | nil => simp at hat
        | cons c u' =>
            rw [List.getLast?_cons_cons] at hz
            exact ih z hp' hz a hat

theorem advanceAndCull_pairwise (cfg : Config) (now : ℚ) (l : List Bar)
    (hp : l.Pairwise (barRel cfg)) :
    (advanceAndCull cfg now l).Pairwise (barRel cfg) := by
  refine List.Pairwise.sublist (List.filter_sublist _) ?_
  rw [List.pairwise_map]
  refine hp.imp ?_
  intro a b hab
  unfold barRel at hab ⊢
  rw [updateBar_x, updateBar_x]
  linarith

theorem advanceAndCull_widths (cfg : Config) (now : ℚ) (l : List Bar)
    (hw : ∀ b ∈ l, b.width = cfg.barWidth) :
    ∀ b ∈ advanceAndCull cfg now l, b.width = cfg.barWidth := by
  intro b hb
  obtain ⟨⟨a, ha, rfl⟩, -⟩ := mem_advanceAndCull cfg now l b hb
  rw [updateBar_width]
  exact hw a ha

theorem reachable_spacing (cfg : Config)
    (hbw : 0 ≤ cfg.barWidth) (hbg : 0 ≤ cfg.barGap)
    {t : ℚ} {s : State} (hre : Reachable cfg t s) :
    s.bars.Pairwise (barRel cfg) ∧ ∀ b ∈ s.bars, b.width = cfg.barWidth := by
  have hWG : (0 : ℚ) ≤ cfg.barWidth + cfg.barGap := by linarith
  induction hre with
  | constructed => simp [initialState]
  | seed t s _ ih =>
      constructor
      · simp only [seedState]
        rw [List.pairwise_map]
        refine (List.pairwise_lt_range (seedCount cfg)).imp ?_
        intro i j hij
        unfold barRel
        simp only [placeholderBar]
        have hij1 : ((i : ℚ) + 1) ≤ (j : ℚ) := by exact_mod_cast hij
        nlinarith
      · intro b hb
        simp only [seedState, List.mem_map, List.mem_range] at hb
        obtain ⟨i, -, rfl⟩ := hb
        rfl
  | attach t t' s _ _ ih => exact ih
  | step t s inp _ _ ih =>
      obtain ⟨hp, hw⟩ := ih
      by_cases htk : takesSample cfg s inp
      · have hroom : cfg.barWidth + cfg.barGap ≤ cfg.width - lastX cfg s.bars := by
          simp only [takesSample, Bool.and_eq_true, decide_eq_true_eq] at htk
          exact htk.1.1
        have hp1 : (s.bars ++ [newBar cfg inp.now inp.buffer]).Pairwise (barRel cfg) := by
          rw [List.pairwise_append]
          refine ⟨hp, List.pairwise_singleton _ _, ?_⟩
          intro a ha b hb
          rw [List.mem_singleton.mp hb]
          obtain ⟨z, hz⟩ : ∃ z, s.bars.getLast? = some z := by
            cases hgl : s.bars.getLast? with
            | none =>
                rw [List.getLast?_eq_none_iff] at hgl
                rw [hgl] at ha
                simp at ha
            | some z => exact ⟨z, rfl⟩
          have hax : a.x ≤ z.x := pairwise_x_le_getLast cfg hWG s.bars z hp hz a ha
          have hlx : lastX cfg s.bars = z.x := by simp [lastX, hz]
          unfold barRel
          simp only [newBar]
          rw [hlx] at hroom
          linarith
        have hw1 : ∀ b ∈ s.bars ++ [newBar cfg inp.now inp.buffer],
            b.width = cfg.barWidth := by
          intro b hb
          rcases List.mem_append.mp hb with h | h
          · exact hw b h
          · rw [List.mem_singleton.mp h]
            rfl
        constructor
        · simp only [tick, if_pos htk]
          exact advanceAndCull_pairwise cfg inp.now _ hp1
        · simp only [tick, if_pos htk]
          exact advanceAndCull_widths cfg inp.now _ hw1
      · constructor
        · simp only [tick, if_neg htk]
          exact advanceAndCull_pairwise cfg inp.now _ hp
        · simp only [tick, if_neg htk]
          exact advanceAndCull_widths cfg inp.now _ hw

theorem chain'_gap_of_pairwise (cfg : Config) :
    ∀ l : List Bar, (∀ b ∈ l, b.width = cfg.barWidth) → l.Pairwise (barRel cfg) →
      l.Chain' (fun a b => cfg.barGap ≤ b.x - (a.x + a.width)) := by
  intro l
  induction l with
  | nil => intro _ _; simp
  | cons a u ih =>
      intro hwd hp
      obtain ⟨hrel, hp'⟩ := List.pairwise_cons.mp hp
      rw [List.chain'_cons']
      refine ⟨?_, ih (fun b hb => hwd b (List.mem_cons_of_mem a hb)) hp'⟩
      intro y hy
      have hymem : y ∈ u := List.mem_of_mem_head? hy
      have hr := hrel y hymem
      have hwa : a.width = cfg.barWidth := hwd a (List.mem_cons_self a u)
      unfold barRel at hr
      rw [hwa]
      linarith

theorem easeInOutCubic_bounds :
    ∀ x : ℚ, 0 ≤ x → x ≤ 1 → 0 ≤ easeInOutCubic x ∧ easeInOutCubic x ≤ 1 := by
  intro x h0 h1
  unfold easeInOutCubic
  by_cases h : x < 1/2
  · rw [if_pos h]
    constructor
    · positivity
    · nlinarith [mul_nonneg (mul_nonneg h0 h0) h0, sq_nonneg x]
  · rw [if_neg h]
    push_neg at h
    constructor
    · nlinarith [sq_nonneg (1 - x), mul_nonneg (sub_nonneg.mpr h1) (sub_nonneg.mpr h1)]
    · nlinarith [sq_nonneg (1 - x), mul_nonneg (sub_nonneg.mpr h1) (sub_nonneg.mpr h1)]

theorem reachable_height_bound_aux (cfg : Config)
    (hH : 0 ≤ cfg.height) (hD : 0 < cfg.expandDuration)
    (hEase : ∀ x, 0 ≤ x → x ≤ 1 → 0 ≤ cfg.easing x ∧ cfg.easing x ≤ 1)
    {t : ℚ} {s : State} (hre : Reachable cfg t s) :
    0 ≤ t ∧ ∀ b ∈ s.bars,
      b.created ≤ t ∧ 0 ≤ b.targetHeight ∧ 0 ≤ b.height ∧
        b.height ≤ b.targetHeight := by
  induction hre with
  | constructed => exact ⟨le_rfl, by simp [initialState]⟩
  | seed t s _ ih =>
      obtain ⟨ht, -⟩ := ih
      refine ⟨ht, ?_⟩
      intro b hb
      simp only [seedState, List.mem_map, List.mem_range] at hb
      obtain ⟨i, -, rfl⟩ := hb
      exact ⟨ht, le_rfl, le_rfl, le_rfl⟩
  | attach t t' s _ hle ih =>
      obtain ⟨ht, hbars⟩ := ih
      refine ⟨le_trans ht hle, ?_⟩
      intro b hb
      obtain ⟨hc, h2, h3, h4⟩ := hbars b hb
      exact ⟨le_trans hc hle, h2, h3, h4⟩
  | step t s inp _ hle ih =>
      obtain ⟨ht, hbars⟩ := ih
      refine ⟨le_trans ht hle, ?_⟩
      intro b hb
      obtain ⟨a, hcase, rfl⟩ := tick_bars_mem cfg s inp b hb
      have hfacts : a.created ≤ inp.now ∧ 0 ≤ a.targetHeight := by
        rcases hcase with h | rfl
        · obtain ⟨hc, h2, -, -⟩ := hbars a h
          exact ⟨le_trans (le_trans hc hle) le_rfl, h2⟩
        · refine ⟨le_rfl, ?_⟩
          show (0 : ℚ) ≤ ((⌊peakOf inp.buffer * cfg.height * (6/5)⌋ : ℤ) : ℚ)
          have hnn : (0 : ℚ) ≤ peakOf inp.buffer * cfg.height * (6/5) :=
            mul_nonneg (mul_nonneg (peakOf_nonneg _) hH) (by norm_num)
          exact_mod_cast Int.floor_nonneg.mpr hnn
      obtain ⟨hac, hat⟩ := hfacts
      refine ⟨?_, ?_, ?_, ?_⟩
      · rw [updateBar_created]; exact hac
      · rw [updateBar_targetHeight]; exact hat
      · cases hstat : a.status with
        | placeholder =>
            rw [updateBar_height_placeholder cfg inp.now a hstat]
            rcases hcase with h | rfl
            · exact (hbars a h).2.2.1
            · simp [newBar] at hstat
        | recorded =>
            rw [updateBar_height_recorded cfg inp.now a hstat]
            have hq0 : 0 ≤ (inp.now - a.created) / cfg.expandDuration :=
              div_nonneg (by linarith) hD.le
            have hp0 : 0 ≤ min ((inp.now - a.created) / cfg.expandDuration) 1 :=
              le_min hq0 zero_le_one
            have hp1 : min ((inp.now - a.created) / cfg.expandDuration) 1 ≤ 1 :=
              min_le_right _ _
            exact mul_nonneg hat (hEase _ hp0 hp1).1
      · cases hstat : a.status with
        | placeholder =>
            rw [updateBar_height_placeholder cfg inp.now a hstat,
              updateBar_targetHeight]
            rcases hcase with h | rfl
            · exact (hbars a h).2.2.2
            · simp [newBar] at hstat
        | recorded =>
            rw [updateBar_height_recorded cfg inp.now a hstat,
              updateBar_targetHeight]
            have hq0 : 0 ≤ (inp.now - a.created) / cfg.expandDuration :=
              div_nonneg (by linarith) hD.le
            have hp0 : 0 ≤ min ((inp.now - a.created) / cfg.expandDuration) 1 :=
              le_min hq0 zero_le_one
            have hp1 : min ((inp.now - a.created) / cfg.expandDuration) 1 ≤ 1 :=
              min_le_right _ _
            calc a.targetHeight * cfg.easing (min ((inp.now - a.created) / cfg.expandDuration) 1)
                ≤ a.targetHeight * 1 :=
                  mul_le_mul_of_nonneg_left (hEase _ hp0 hp1).2 hat
              _ = a.targetHeight := mul_one _

theorem seedCount_cfgA : seedCount cfgA = 8 := by
  have hc : ⌈(100 : ℚ) / 13⌉ = (8 : ℤ) := by
    rw [Int.ceil_eq_iff]
    norm_num
  have h13 : (3 : ℚ) + 10 = 13 := by norm_num
  simp [seedCount, cfgA, h13, hc]

/-! ## Claims -/

/-- C10: at construction every option among `timeOffset`, `barWidth`,
`barGap`, `scrollSpeed`, the three colors, `expandDuration` and `easing` is
defaulted with `||`, so a falsy value (`0`, the empty string, or an absent
option) yields the documented default — in particular `scrollSpeed: 0`
becomes `1` and `expandDuration: 0` becomes `200` — whereas
`noiseThreshold` uses `??`, so `noiseThreshold: 0` is honored and only an
absent option falls back to `0.01`. -/
theorem constructor_defaults :
    ∀ (w h : ℚ) (o : HakaOptions),
      (mkConfig w h { o with timeOffset := some 0 }).timeOffset = 100 ∧
      (mkConfig w h { o with barWidth := some 0 }).barWidth = 3 ∧
      (mkConfig w h { o with barGap := some 0 }).barGap = 10 ∧
      (mkConfig w h { o with scrollSpeed := some 0 }).scrollSpeed = 1 ∧
      (mkConfig w h { o with expandDuration := some 0 }).expandDuration = 200 ∧
      (mkConfig w h { o with barColor := some "" }).barColor = "#FFFFFF" ∧
      (mkConfig w h { o with dotColor := some "" }).dotColor = "#666666" ∧
      (mkConfig w h { o with blackDotColor := some "" }).blackDotColor = "#000000" ∧
      (mkConfig w h { o with easing := none }).easing = easeInOutCubic ∧
      (mkConfig w h { o with scrollSpeed := none }).scrollSpeed = 1 ∧
      (mkConfig w h { o with expandDuration := none }).expandDuration = 200 ∧
      (mkConfig w h { o with noiseThreshold := some 0 }).noiseThreshold = 0 ∧
      (mkConfig w h { o with noiseThreshold := none }).noiseThreshold = 1/100 := by
  intro w h o
  refine ⟨?_, ?_, ?_, ?_, ?_, ?_, ?_, ?_, ?_, ?_, ?_, ?_, ?_⟩ <;>
    simp [mkConfig, orQ, orS]

/-- C9: when audio-stream acquisition fails, `start` only logs the error:
the timeline state (hence the seeded bars) is untouched, the analyser stays
unattached, the animation loop is not started (and a later scheduler tick on
a non-running instance changes nothing), exactly one `getUserMedia` request
was made (no retry), and the failure is reported to the `console.error`
sink. -/
theorem acquisition_failure_nonfatal :
    ∀ (a : AppState) (e : String) (now : ℚ),
      (start (.error e) now a).state = a.state ∧
      (start (.error e) now a).attached = a.attached ∧
      (start (.error e) now a).running = a.running ∧
      (start (.error e) now a).mediaRequests = a.mediaRequests + 1 ∧
      (start (.error e) now a).errorLog
        = a.errorLog ++ ["Error getting audio stream: " ++ e] ∧
      (∀ (cfg : Config) (inp : TickInput), a.running = false →
          appTick cfg (start (.error e) now a) inp = start (.error e) now a) := by
  intro a e now
  refine ⟨rfl, rfl, rfl, rfl, rfl, ?_⟩
  intro cfg inp hrun
  simp [appTick, start, soundNotAllowed, hrun]

/-- C9 witness: a denied acquisition on the freshly seeded instance leaves
it inert. -/
theorem acquisition_failure_nonfatal_witness :
    appTick cfgA (start (.error "denied") 5 appA) ⟨6, false, []⟩
      = start (.error "denied") 5 appA :=
  (acquisition_failure_nonfatal appA "denied" 5).2.2.2.2.2 cfgA ⟨6, false, []⟩ rfl

/-- C8: on every frame, a recorded bar with `targetHeight` strictly below
`noiseThreshold * surfaceHeight` is painted as a 2-unit strip at
`y = height/2 - 1` in the quiet-signal `dotColor` (whatever its
`currentHeight`); a recorded bar at or above the threshold as a filled
rectangle of width `barWidth` and the currently eased height, vertically
centered; a placeholder as the same strip in the before-audio
`blackDotColor`. -/
theorem threshold_rendering (cfg : Config) (now : ℚ) (b : Bar) :
    (b.status = .recorded → b.targetHeight < cfg.noiseThreshold * cfg.height →
      renderBar cfg now b
        = { x := b.x, y := cfg.height / 2 - 1, w := b.width, h := 2
            color := cfg.dotColor }) ∧
    (b.status = .recorded → cfg.noiseThreshold * cfg.height ≤ b.targetHeight →
      renderBar cfg now b
        = { x := b.x, y := cfg.height / 2 - (updateBar cfg now b).height / 2
            w := b.width, h := (updateBar cfg now b).height
            color := cfg.barColor }) ∧
    (b.status = .placeholder →
      renderBar cfg now b
        = { x := b.x, y := cfg.height / 2 - 1, w := b.width, h := 2
            color := cfg.blackDotColor }) := by
  refine ⟨?_, ?_, ?_⟩
  · intro hst hlt
    rw [mul_comm] at hlt
    simp [renderBar, hst, if_pos hlt]
  · intro hst hge
    rw [mul_comm] at hge
    simp [renderBar, updateBar, hst, if_neg (not_lt.mpr hge)]
  · intro hst
    simp [renderBar, hst]

/-- C8 witness: the three render cases evaluated at concrete bars under the
default configuration values. -/
theorem threshold_rendering_witness :
    (renderBar cfgA 0 quietBar
      = { x := quietBar.x, y := cfgA.height / 2 - 1, w := quietBar.width, h := 2
          color := cfgA.dotColor }) ∧
    (renderBar cfgA 0 loudBar
      = { x := loudBar.x, y := cfgA.height / 2 - (updateBar cfgA 0 loudBar).height / 2
          w := loudBar.width, h := (updateBar cfgA 0 loudBar).height
          color := cfgA.barColor }) ∧
    (renderBar cfgA 0 (placeholderBar cfgA 0)
      = { x := (placeholderBar cfgA 0).x, y := cfgA.height / 2 - 1
          w := (placeholderBar cfgA 0).width, h := 2
          color := cfgA.blackDotColor }) :=
  ⟨(threshold_rendering cfgA 0 quietBar).1 rfl (by norm_num [cfgA, quietBar]),
   (threshold_rendering cfgA 0 loudBar).2.1 rfl (by norm_num [cfgA, loudBar]),
   (threshold_rendering cfgA 0 (placeholderBar cfgA 0)).2.2 rfl⟩

/-- C7: `initialize` discards all prior bars and seeds exactly
`ceil(width / (barWidth + barGap))` placeholder bars at offsets
`i * (barWidth + barGap)`; re-seeding is idempotent; and on a 100-unit
surface with `barWidth = 3`, `barGap = 10` it yields 8 bars at offsets
`0, 13, ..., 91`. -/
theorem seeding_spec (cfg : Config) (s : State)
    (hw : 0 ≤ cfg.width) (hwg : 0 < cfg.barWidth + cfg.barGap) :
    (((seedState cfg s).bars.length : ℤ)
        = ⌈cfg.width / (cfg.barWidth + cfg.barGap)⌉) ∧
    (∀ i (hi : i < (seedState cfg s).bars.length),
        ((seedState cfg s).bars.get ⟨i, hi⟩).x
            = (i : ℚ) * (cfg.barWidth + cfg.barGap) ∧
        ((seedState cfg s).bars.get ⟨i, hi⟩).status = .placeholder) ∧
    seedState cfg (seedState cfg s) = seedState cfg s ∧
    (seedState cfgA s).bars.length = 8 ∧
    (seedState cfgA s).bars.map Bar.x = [0, 13, 26, 39, 52, 65, 78, 91] := by
  refine ⟨?_, ?_, rfl, ?_, ?_⟩
  · have hnn : (0 : ℤ) ≤ ⌈cfg.width / (cfg.barWidth + cfg.barGap)⌉ :=
      Int.ceil_nonneg (div_nonneg hw hwg.le)
    simp [seedState, seedCount, Int.toNat_of_nonneg hnn]
  · intro i hi
    constructor <;>
      simp [seedState, List.get_eq_getElem, placeholderBar]
  · simp [seedState, seedCount_cfgA]
  · rw [seedState, seedCount_cfgA]
    norm_num [List.range_succ, placeholderBar, cfgA]

/-- C7 witness: the seeding spec at the scenario configuration. -/
theorem seeding_spec_witness :
    (((seedState cfgA initialState).bars.length : ℤ)
        = ⌈cfgA.width / (cfgA.barWidth + cfgA.barGap)⌉) ∧
    (seedState cfgA initialState).bars.length = 8 ∧
    (seedState cfgA initialState).bars.map Bar.x
        = [0, 13, 26, 39, 52, 65, 78, 91] := by
  have h := seeding_spec cfgA initialState (by norm_num [cfgA]) (by norm_num [cfgA])
  exact ⟨h.1, h.2.2.2.1, h.2.2.2.2⟩

/-- C6: a sample is taken only when `now - lastDataCollectionTime` strictly
exceeds the configured interval; after a sampling tick, any tick at most the
interval later cannot sample again; concretely, with the default 100 ms
interval, ticks at `t = 0` and `t = 50` yield one recorded bar and a third
tick at `t = 150` yields a second. -/
theorem sampling_gating :
    (∀ (cfg : Config) (s : State) (inp : TickInput),
        takesSample cfg s inp = true →
        cfg.timeOffset < inp.now - s.lastDataCollectionTime) ∧
    (∀ (cfg : Config) (s : State) (inp1 inp2 : TickInput),
        takesSample cfg s inp1 = true →
        inp2.now - inp1.now ≤ cfg.timeOffset →
        takesSample cfg (tick cfg s inp1) inp2 = false) ∧
    (countRecorded (tick cfgA (tick cfgA sA ⟨0, true, [1/2]⟩) ⟨50, true, [1/2]⟩)
        = 1) ∧
    (countRecorded
        (tick cfgA (tick cfgA (tick cfgA sA ⟨0, true, [1/2]⟩) ⟨50, true, [1/2]⟩)
          ⟨150, true, [1/2]⟩) = 2) := by
  refine ⟨?_, ?_, ?_, ?_⟩
  · intro cfg s inp h
    simp only [takesSample, Bool.and_eq_true, decide_eq_true_eq] at h
    exact h.2
  · intro cfg s inp1 inp2 h1 h2
    have hlast : (tick cfg s inp1).lastDataCollectionTime = inp1.now := by
      simp [tick, h1]
    simp only [takesSample, hlast, Bool.and_eq_false_iff]
    right
    simpa using not_lt.mpr h2
  · norm_num [tick, takesSample, lastX, sA, cfgA, placeholderBar, countRecorded,
      advanceAndCull, updateBar, newBar, peakOf, easeInOutCubic, List.filter]
  · norm_num [tick, takesSample, lastX, sA, cfgA, placeholderBar, countRecorded,
      advanceAndCull, updateBar, newBar, peakOf, easeInOutCubic, List.filter]

/-- C6 witness: after the sampling tick at `t = 0`, the tick at `t = 50`
(50 ms < 100 ms later) is gated off. -/
theorem sampling_gating_witness :
    takesSample cfgA (tick cfgA sA ⟨0, true, [1/2]⟩) ⟨50, true, [1/2]⟩ = false :=
  sampling_gating.2.1 cfgA sA ⟨0, true, [1/2]⟩ ⟨50, true, [1/2]⟩
    (by norm_num [takesSample, lastX, sA, cfgA, placeholderBar])
    (by norm_num [cfgA])

/-- C4: for a recorded bar and a monotone easing with `easing 1 = 1`, the
tick-recomputed `currentHeight` is non-decreasing over
`[created, created + expandDuration]` and equals `targetHeight` exactly at
every tick from `created + expandDuration` on (progress clamps to 1);
concretely, with linear easing, `targetHeight = 50` and duration 200, the
height is 25 at `t0 + 100` and 50 at `t0 + 200` and beyond. -/
theorem monotone_convergence (cfg : Config) (b : Bar)
    (hst : b.status = .recorded) (hD : 0 < cfg.expandDuration)
    (hT : 0 ≤ b.targetHeight)
    (hmono : ∀ x y, 0 ≤ x → x ≤ y → y ≤ 1 → cfg.easing x ≤ cfg.easing y)
    (h1 : cfg.easing 1 = 1) :
    (∀ t1 t2, b.created ≤ t1 → t1 ≤ t2 → t2 ≤ b.created + cfg.expandDuration →
        (updateBar cfg t1 b).height ≤ (updateBar cfg t2 b).height) ∧
    (∀ t, b.created + cfg.expandDuration ≤ t →
        (updateBar cfg t b).height = b.targetHeight) ∧
    ((updateBar cfgLin 100 recBar).height = 25) ∧
    (∀ t, 200 ≤ t → (updateBar cfgLin t recBar).height = 50) := by
  refine ⟨?_, ?_, ?_, ?_⟩
  · intro t1 t2 ht1 ht12 ht2
    have hq1 : (0 : ℚ) ≤ (t1 - b.created) / cfg.expandDuration :=
      div_nonneg (by linarith) hD.le
    have hq12 : (t1 - b.created) / cfg.expandDuration
        ≤ (t2 - b.created) / cfg.expandDuration := by gcongr
    have hp1 : (0 : ℚ) ≤ min ((t1 - b.created) / cfg.expandDuration) 1 :=
      le_min hq1 zero_le_one
    have hp12 : min ((t1 - b.created) / cfg.expandDuration) 1
        ≤ min ((t2 - b.created) / cfg.expandDuration) 1 :=
      min_le_min hq12 le_rfl
    have hp2 : min ((t2 - b.created) / cfg.expandDuration) 1 ≤ 1 :=
      min_le_right _ _
    simp only [updateBar, hst]
    exact mul_le_mul_of_nonneg_left (hmono _ _ hp1 hp12 hp2) hT
  · intro t ht
    have hq : (1 : ℚ) ≤ (t - b.created) / cfg.expandDuration :=
      (one_le_div hD).mpr (by linarith)
    simp only [updateBar, hst, min_eq_right hq, h1, mul_one]
  · norm_num [updateBar, cfgLin, cfgA, recBar]
  · intro t ht
    have hq : (1 : ℚ) ≤ (t - recBar.created) / cfgLin.expandDuration := by
      rw [one_le_div (by norm_num [cfgLin, cfgA])]
      norm_num [cfgLin, cfgA, recBar]
      linarith
    simp only [updateBar, cfgLin, cfgA, recBar, min_eq_right hq]
    norm_num [cfgLin, cfgA, recBar] at hq ⊢
    linarith

/-- C4 witness: the convergence facts at the linear-easing scenario. -/
theorem monotone_convergence_witness :
    (updateBar cfgLin 100 recBar).height = 25 ∧
    (updateBar cfgLin 300 recBar).height = 50 :=
  ⟨(monotone_convergence cfgLin recBar rfl (by norm_num [cfgLin, cfgA])
      (by norm_num [recBar])
      (fun x y _ hxy _ => by simpa [cfgLin, cfgA] using hxy) rfl).2.2.1,
   (monotone_convergence cfgLin recBar rfl (by norm_num [cfgLin, cfgA])
      (by norm_num [recBar])
      (fun x y _ hxy _ => by simpa [cfgLin, cfgA] using hxy) rfl).2.2.2 300
      (by norm_num)⟩

/-- C1 counterexample: with the buffer `[-1/2]` (a purely negative-going
peak) on a 100-unit-high surface, a sampling tick appends a bar with
`targetHeight = 0`, while `floor(max(|sample|) * height * 1.2) = 60`: the
code takes the maximum raw sample (clamped below by the initial 0), not the
maximum absolute value. -/
theorem peak_abs_counterexample :
    takesSample cfgA sA ⟨0, true, [-(1/2 : ℚ)]⟩ = true ∧
    (tick cfgA sA ⟨0, true, [-(1/2 : ℚ)]⟩).bars.map Bar.targetHeight = [0] ∧
    ((⌊specPeakAbs [-(1/2 : ℚ)] * cfgA.height * (6/5)⌋ : ℤ) : ℚ) = 60 ∧
    (0 : ℚ) ≠ 60 := by
  refine ⟨?_, ?_, ?_, by norm_num⟩
  · norm_num [takesSample, lastX, sA, cfgA, placeholderBar]
  · norm_num [tick, takesSample, lastX, sA, cfgA, placeholderBar,
      advanceAndCull, updateBar, newBar, peakOf, easeInOutCubic, List.filter]
  · have habs : |-(1/2 : ℚ)| = 1/2 := by
      rw [abs_neg, abs_of_nonneg (by norm_num : (0 : ℚ) ≤ 1/2)]
    norm_num [specPeakAbs, habs, cfgA]

/-- C1 (amended): on a sampling tick the appended bar's `targetHeight` is
`floor(peak * surfaceHeight * 1.2)` where `peak` is the maximum of `0` and
the raw (not absolute-value) samples of the buffer. -/
theorem peak_formula_raw (cfg : Config) (s : State) (inp : TickInput)
    (h : takesSample cfg s inp = true) :
    tick cfg s inp
      = { bars := advanceAndCull cfg inp.now
            (s.bars ++ [newBar cfg inp.now inp.buffer])
          lastDataCollectionTime := inp.now } ∧
    (newBar cfg inp.now inp.buffer).targetHeight
      = ((⌊peakOf inp.buffer * cfg.height * (6/5)⌋ : ℤ) : ℚ) ∧
    0 ≤ peakOf inp.buffer ∧
    (∀ v ∈ inp.buffer, v ≤ peakOf inp.buffer) ∧
    (peakOf inp.buffer = 0 ∨ peakOf inp.buffer ∈ inp.buffer) := by
  refine ⟨by simp [tick, h], rfl, peakOf_nonneg _, ?_, foldl_peak_mem _ 0⟩
  intro v hv
  exact mem_le_foldl_peak _ 0 v hv

/-- C1 witness: the amended formula on the sampling tick with buffer
`[1/2]`. -/
theorem peak_formula_raw_witness :
    (newBar cfgA 0 [(1/2 : ℚ)]).targetHeight
      = ((⌊peakOf [(1/2 : ℚ)] * cfgA.height * (6/5)⌋ : ℤ) : ℚ) ∧
    (peakOf [(1/2 : ℚ)] = 0 ∨ peakOf [(1/2 : ℚ)] ∈ [(1/2 : ℚ)]) := by
  have h := peak_formula_raw cfgA sA ⟨0, true, [(1/2 : ℚ)]⟩
    (by norm_num [takesSample, lastX, sA, cfgA, placeholderBar])
  exact ⟨h.2.1, h.2.2.2.2⟩

/-- C5: `advanceAndCull` keeps exactly the updated bars whose post-scroll
trailing edge satisfies `position + width >= 0` (so precisely the bars with
`position + width < 0` are removed in the same tick), and in every
reachable state every present bar satisfies `position + width >= 0`, so a
culled bar (whose trailing edge was negative) never reappears. -/
theorem cull_correctness (cfg : Config) (now : ℚ) (l : List Bar)
    (t : ℚ) (s : State) (hre : Reachable cfg t s)
    (hbw : 0 ≤ cfg.barWidth) (hbg : 0 ≤ cfg.barGap) :
    (∀ b, b ∈ advanceAndCull cfg now l ↔
        ∃ a ∈ l, b = updateBar cfg now a ∧ 0 ≤ b.x + b.width) ∧
    (∀ b ∈ s.bars, 0 ≤ b.x + b.width) := by
  constructor
  · intro b
    constructor
    · intro hb
      obtain ⟨⟨a, ha, rfl⟩, hpos⟩ := mem_advanceAndCull cfg now l b hb
      exact ⟨a, ha, rfl, hpos⟩
    · rintro ⟨a, ha, rfl, hpos⟩
      simp only [advanceAndCull, List.mem_filter, List.mem_map]
      exact ⟨⟨a, ha, rfl⟩, decide_eq_true hpos⟩
  · exact reachable_trailing_edge cfg hbw hbg hre

/-- C5 witness: the cull characterization on a singleton list, and the
trailing-edge invariant on the freshly seeded state. -/
theorem cull_correctness_witness :
    (∀ b, b ∈ advanceAndCull cfgA 0 [recBar] ↔
        ∃ a ∈ [recBar], b = updateBar cfgA 0 a ∧ 0 ≤ b.x + b.width) ∧
    (∀ b ∈ (seedState cfgA initialState).bars, 0 ≤ b.x + b.width) :=
  cull_correctness cfgA 0 [recBar] 0 (seedState cfgA initialState)
    (Reachable.seed 0 initialState Reachable.constructed)
    (by norm_num [cfgA]) (by norm_num [cfgA])

/-- C2: in every reachable state the bars sit at strictly increasing
offsets, each adjacent pair has a trailing-to-leading gap of at least
`barGap`, and a sample (hence a new recorded bar at the right edge) is only
taken when the newest bar is at least `barWidth + barGap` from that edge;
the tick's uniform scroll preserves these facts, as the induction behind
`reachable_spacing` shows. -/
theorem spacing_invariant (cfg : Config) (t : ℚ) (s : State)
    (hre : Reachable cfg t s)
    (hbw : 0 ≤ cfg.barWidth) (hbg : 0 ≤ cfg.barGap)
    (hpos : 0 < cfg.barWidth + cfg.barGap) :
    s.bars.Pairwise (fun a b => a.x < b.x) ∧
    s.bars.Chain' (fun a b => cfg.barGap ≤ b.x - (a.x + a.width)) ∧
    (∀ inp, takesSample cfg s inp = true →
        cfg.barWidth + cfg.barGap ≤ cfg.width - lastX cfg s.bars) := by
  obtain ⟨hp, hw⟩ := reachable_spacing cfg hbw hbg hre
  refine ⟨?_, chain'_gap_of_pairwise cfg s.bars hw hp, ?_⟩
  · refine hp.imp ?_
    intro a b hab
    unfold barRel at hab
    linarith
  · intro inp h
    simp only [takesSample, Bool.and_eq_true, decide_eq_true_eq] at h
    exact h.1.1

/-- C2 witness: the spacing facts on the seeded 100-unit surface. -/
theorem spacing_invariant_witness :
    (seedState cfgA initialState).bars.Pairwise (fun a b => a.x < b.x) ∧
    (seedState cfgA initialState).bars.Chain'
      (fun a b => cfgA.barGap ≤ b.x - (a.x + a.width)) ∧
    (∀ inp, takesSample cfgA (seedState cfgA initialState) inp = true →
        cfgA.barWidth + cfgA.barGap
          ≤ cfgA.width - lastX cfgA (seedState cfgA initialState).bars) :=
  spacing_invariant cfgA 0 (seedState cfgA initialState)
    (Reachable.seed 0 initialState Reachable.constructed)
    (by norm_num [cfgA]) (by norm_num [cfgA]) (by norm_num [cfgA])

/-- C3: in every reachable state every bar satisfies
`0 ≤ currentHeight ≤ targetHeight`, provided the easing maps `[0, 1]` into
`[0, 1]` — which the default `easeInOutCubic` does. -/
theorem height_bound (cfg : Config) (t : ℚ) (s : State)
    (hre : Reachable cfg t s)
    (hH : 0 ≤ cfg.height) (hD : 0 < cfg.expandDuration)
    (hEase : ∀ x, 0 ≤ x → x ≤ 1 → 0 ≤ cfg.easing x ∧ cfg.easing x ≤ 1) :
    (∀ b ∈ s.bars, 0 ≤ b.height ∧ b.height ≤ b.targetHeight) ∧
    (∀ x : ℚ, 0 ≤ x → x ≤ 1 →
        0 ≤ easeInOutCubic x ∧ easeInOutCubic x ≤ 1) := by
  refine ⟨?_, easeInOutCubic_bounds⟩
  intro b hb
  obtain ⟨-, h⟩ := reachable_height_bound_aux cfg hH hD hEase hre
  obtain ⟨-, -, h3, h4⟩ := h b hb
  exact ⟨h3, h4⟩

/-- C3 witness: the height bound after a sampling tick on the seeded
default-like configuration (whose easing is `easeInOutCubic`). -/
theorem height_bound_witness :
    (∀ b ∈ (tick cfgA (seedState cfgA initialState) ⟨200, true, [1/2]⟩).bars,
        0 ≤ b.height ∧ b.height ≤ b.targetHeight) ∧
    (∀ x : ℚ, 0 ≤ x → x ≤ 1 →
        0 ≤ easeInOutCubic x ∧ easeInOutCubic x ≤ 1) :=
  height_bound cfgA 200
    (tick cfgA (seedState cfgA initialState) ⟨200, true, [1/2]⟩)
    (Reachable.step 0 (seedState cfgA initialState) ⟨200, true, [1/2]⟩
      (Reachable.seed 0 initialState Reachable.constructed) (by norm_num))
    (by norm_num [cfgA]) (by norm_num [cfgA])
    (fun x h0 h1 => easeInOutCubic_bounds x h0 h1)

end Haka
